import Mathlib

/-!
Verification of the discrete-operator engine of
`src/implicit_fairing/mesh_processing.cpp` (geometry_processing repository).

The half-edge mesh data structure (`surface_mesh`) is an external
collaborator per the specification: its traversal primitives (one-ring
circulators, boundary predicates, edge/halfedge lookups) are modelled as
data carried by a `Topo` record, in the consistent circulator order the
provider yields. All scalar arithmetic of the C++ code (float/double)
is modelled over `ℝ`.

The sparse linear solver (Eigen `SimplicialLDLT` / `SparseLU`) is an
external capability: it is modelled as a parameter returning an n×3
solution together with a success flag (`info() == Eigen::Success`).
`setFromTriplets` sums duplicate (row, col) contributions; this is
modelled by `matrixOfTriplets`.
-/

namespace GP

/-- A 3D point / vector (`surface_mesh::Point`), modelled componentwise. -/
abbrev Pt : Type := ℝ × ℝ × ℝ

/-- `dot(d0, d1)` on `Point`. -/
def dot3 (p q : Pt) : ℝ := p.1 * q.1 + p.2.1 * q.2.1 + p.2.2 * q.2.2

/-- `cross(d0, d1)` on `Point`. -/
def cross3 (p q : Pt) : Pt :=
  (p.2.1 * q.2.2 - p.2.2 * q.2.1,
   p.2.2 * q.1 - p.1 * q.2.2,
   p.1 * q.2.1 - p.2.1 * q.1)

/-- `norm(p)` on `Point` (Euclidean norm). -/
noncomputable def norm3 (p : Pt) : ℝ := Real.sqrt (dot3 p p)

/-- `normalize(p)` on `Point`: `p / norm(p)`. -/
noncomputable def normalize3 (p : Pt) : Pt := (1 / norm3 p) • p

/-- `points[v][dim]` coordinate access used by the solver assembly loops. -/
def coord (p : Pt) (d : Fin 3) : ℝ :=
  if d = 0 then p.1 else if d = 1 then p.2.1 else p.2.2

/-- Rebuild a `Point` from the three solver solution coordinates
(`points[v][dim] = X(i, dim)` for dim = 0, 1, 2). -/
def ptOfCoords (f : Fin 3 → ℝ) : Pt := (f 0, f 1, f 2)

/-- What the code reads of an edge: `to_vertex(halfedge(e,0))`,
`to_vertex(halfedge(e,1))`, and — when the halfedge is not boundary —
`to_vertex(next_halfedge(halfedge(e,k)))` (the opposite vertex in the
incident triangle); `none` encodes `is_boundary(h)`. -/
structure EdgeData (nV : ℕ) where
  v0 : Fin nV
  v1 : Fin nV
  opp0 : Option (Fin nV)
  opp1 : Option (Fin nV)

/-- The external Mesh Topology Provider: entity counts, circulators
(in their consistent traversal order) and boundary predicate.
`ring v` is the vertex-around-vertex circulator, `hring v` the
halfedge-around-vertex circulator exposing `(to_vertex hv, edge hv)`,
`fring v` the face-around-vertex circulator exposing the first three
vertices of each face's vertex circulator. -/
structure Topo where
  nV : ℕ
  nE : ℕ
  ring : Fin nV → List (Fin nV)
  hring : Fin nV → List (Fin nV × Fin nE)
  fring : Fin nV → List (Fin nV × Fin nV × Fin nV)
  edge : Fin nE → EdgeData nV
  isBoundary : Fin nV → Bool

/-- Vertex positions (`v:point`) for a fixed topology. -/
abbrev Pos (T : Topo) := Fin T.nV → Pt

/-- One cotangent contribution of `calc_edges_weights`: for a non-boundary
halfedge, `dot(d0,d1) / norm(cross(d0,d1))` with `d0 = p0 - p2`,
`d1 = p1 - p2`; a boundary halfedge contributes nothing. -/
noncomputable def cotTerm (p0 p1 : Pt) (p2? : Option Pt) : ℝ :=
  match p2? with
  | none => 0
  | some p2 => dot3 (p0 - p2) (p1 - p2) / norm3 (cross3 (p0 - p2) (p1 - p2))

/-- `MeshProcessing::calc_edges_weights`: per edge, reset to 0 and add one
cotangent term per non-boundary incident halfedge. -/
noncomputable def calc_edges_weights (T : Topo) (pos : Pos T) : Fin T.nE → ℝ :=
  fun e =>
    let ed := T.edge e
    cotTerm (pos ed.v0) (pos ed.v1) (ed.opp0.map pos) +
      cotTerm (pos ed.v0) (pos ed.v1) (ed.opp1.map pos)

/-- One face's contribution to the barycentric vertex area in
`calc_vertices_weights`: `norm(cross(Q-P, R-P)) * 0.5f * 0.3333f`. -/
noncomputable def faceAreaTerm (pos : Pos T) (t : Fin T.nV × Fin T.nV × Fin T.nV) : ℝ :=
  norm3 (cross3 (pos t.2.1 - pos t.1) (pos t.2.2 - pos t.1)) * 0.5 * 0.3333

/-- `MeshProcessing::calc_vertices_weights`: a vertex whose face circulator
is invalid (`if(!vf_c) continue`) keeps its previous attribute value
(`old v`, the creation default being 0); otherwise
`v_weight[v] = 0.5 / area` with `area` the sum of the face terms. -/
noncomputable def calc_vertices_weights (T : Topo) (pos : Pos T)
    (old : Fin T.nV → ℝ) : Fin T.nV → ℝ :=
  fun v =>
    if (T.fring v).isEmpty then old v
    else 0.5 / ((T.fring v).map (faceAreaTerm pos)).sum

/-- The `v:weight` attribute as produced by `calc_weights` on a mesh where
the attribute holds its creation default 0 (the attribute is removed at the
end of each solver call, and isolated vertices are never written). -/
noncomputable def vertexWeights (T : Topo) (pos : Pos T) : Fin T.nV → ℝ :=
  calc_vertices_weights T pos (fun _ => 0)

/-- An Eigen triplet `(row, column, value)`. -/
abbrev Triplet (n : ℕ) := Fin n × Fin n × ℝ

/-- `Eigen::SparseMatrix::setFromTriplets`: entries at equal coordinates
are summed. -/
def matrixOfTriplets {n : ℕ} : List (Triplet n) → Fin n → Fin n → ℝ
  | [], _, _ => 0
  | t :: ts, i, j =>
      (if t.1 = i ∧ t.2.1 = j then t.2.2 else 0) + matrixOfTriplets ts i j

/-- The `for (int i = 0; i < n; ++i)` assembly loop: concatenate each
row's triplet contributions. -/
def rowsTriplets {n : ℕ} (rowT : Fin n → List (Triplet n)) :
    List (Fin n) → List (Triplet n)
  | [] => []
  | i :: is => rowT i ++ rowsTriplets rowT is

/-- The external sparse solver capability: for each size it takes the
assembled matrix and the n×3 right-hand side and returns a solution
matrix together with a success flag (`info() == Eigen::Success`). -/
def SolveFn : Type :=
  ∀ n : ℕ, (Fin n → Fin n → ℝ) → (Fin n → Fin 3 → ℝ) → ((Fin n → Fin 3 → ℝ) × Bool)

/-! ### Implicit fairing solver (`MeshProcessing::implicit_smoothing`) -/

/-- Row `i` of the triplets pushed by `implicit_smoothing`: one
`(i, vv.idx(), -timestep*eweight)` per halfedge of `i`'s one-ring,
then the diagonal `(i, i, 1.0/vweight + timestep*ww)` where `ww` is the
accumulated sum of the one-ring edge weights. -/
noncomputable def implicit_row (T : Topo) (t : ℝ) (cotan : Fin T.nE → ℝ)
    (vw : Fin T.nV → ℝ) (i : Fin T.nV) : List (Triplet T.nV) :=
  ((T.hring i).map (fun ve => (i, ve.1, -t * cotan ve.2))) ++
    [(i, i, 1 / vw i + t * ((T.hring i).map (fun ve => cotan ve.2)).sum)]

/-- All triplets pushed by `implicit_smoothing` (rows i = 0..n-1). -/
noncomputable def implicit_triplets (T : Topo) (pos : Pos T) (t : ℝ) :
    List (Triplet T.nV) :=
  rowsTriplets
    (implicit_row T t (calc_edges_weights T pos) (vertexWeights T pos))
    (List.finRange T.nV)

/-- The assembled system matrix `A` of `implicit_smoothing`. -/
noncomputable def implicit_A (T : Topo) (pos : Pos T) (t : ℝ) :
    Fin T.nV → Fin T.nV → ℝ :=
  matrixOfTriplets (implicit_triplets T pos t)

/-- The right-hand side `B(i, dim) = points[v][dim] / vweight` of
`implicit_smoothing`. -/
noncomputable def implicit_B (T : Topo) (pos : Pos T) : Fin T.nV → Fin 3 → ℝ :=
  fun i d => coord (pos i) d / vertexWeights T pos i

/-- `MeshProcessing::implicit_smoothing`: recompute weights, assemble
`A` and `B`, solve, and copy the solution into the vertex positions.
The code never consults the solver's status. -/
noncomputable def implicit_smoothing (solve : SolveFn) (T : Topo) (pos : Pos T)
    (t : ℝ) : Pos T :=
  fun i =>
    ptOfCoords (fun d => (solve T.nV (implicit_A T pos t) (implicit_B T pos)).1 i d)

/-! ### Minimal surface solver (`MeshProcessing::minimal_surface`) -/

/-- Row `i` of the triplets pushed by `minimal_surface`: boundary vertices
get the single identity triplet `(i, i, 1)`; interior vertices get
`(i, vv.idx(), -eweight)` per one-ring halfedge plus the diagonal
`(i, i, ww)`. -/
noncomputable def minimal_row (T : Topo) (cotan : Fin T.nE → ℝ) (i : Fin T.nV) :
    List (Triplet T.nV) :=
  if T.isBoundary i then [(i, i, 1)]
  else
    ((T.hring i).map (fun ve => (i, ve.1, -cotan ve.2))) ++
      [(i, i, ((T.hring i).map (fun ve => cotan ve.2)).sum)]

/-- All triplets pushed by `minimal_surface`. -/
noncomputable def minimal_triplets (T : Topo) (pos : Pos T) : List (Triplet T.nV) :=
  rowsTriplets (minimal_row T (calc_edges_weights T pos)) (List.finRange T.nV)

/-- The assembled system matrix `L` of `minimal_surface`. -/
noncomputable def minimal_L (T : Topo) (pos : Pos T) : Fin T.nV → Fin T.nV → ℝ :=
  matrixOfTriplets (minimal_triplets T pos)

/-- The right-hand side of `minimal_surface`: the load-time snapshot
position (`mesh_init_`, `points_init[v]`) on boundary rows, 0 elsewhere. -/
def minimal_rhs (T : Topo) (posInit : Pos T) : Fin T.nV → Fin 3 → ℝ :=
  fun i d => if T.isBoundary i then coord (posInit i) d else 0

/-- `MeshProcessing::minimal_surface`: assemble `L` and the right-hand
side, solve (the code checks `solver.info()` only to `printf`, never to
branch), and write `points[v][dim] += 1. * (X(i,dim) - points[v][dim])`.
The informational `printf` of the summed area has no state effect and is
not modelled. -/
noncomputable def minimal_surface (solve : SolveFn) (T : Topo)
    (pos posInit : Pos T) : Pos T :=
  fun i =>
    ptOfCoords (fun d =>
      coord (pos i) d +
        1 * ((solve T.nV (minimal_L T pos) (minimal_rhs T posInit)).1 i d -
          coord (pos i) d))

/-! ### Explicit smoothers and feature enhancement -/

/-- One iteration of `MeshProcessing::uniform_smooth`: for every vertex a
new position is staged from the current (old) positions — interior vertices
get `position + 0.5 * (one-ring displacement sum / ring size)`, boundary
vertices a zero laplacian — and then all staged positions are committed. -/
noncomputable def uniformSmoothStep (T : Topo) (pos : Pos T) : Pos T :=
  fun v =>
    if T.isBoundary v then pos v
    else
      pos v +
        (0.5 : ℝ) • ((1 / ((T.ring v).length : ℝ)) •
          ((T.ring v).map (fun u => pos u - pos v)).sum)

/-- `MeshProcessing::uniform_smooth`: iterate `uniformSmoothStep`. -/
noncomputable def uniform_smooth (T : Topo) (pos : Pos T) : ℕ → Pos T
  | 0 => pos
  | n + 1 => uniform_smooth T (uniformSmoothStep T pos) n

/-- One iteration of `MeshProcessing::smooth` (cotangent-weighted): edge
weights are recomputed from the current positions, then each interior
vertex stages `position + 0.5 * (Σ w·(neighbor - v)) / Σ w`. -/
noncomputable def smoothStep (T : Topo) (pos : Pos T) : Pos T :=
  let eW := calc_edges_weights T pos
  fun v =>
    if T.isBoundary v then pos v
    else
      pos v +
        (0.5 : ℝ) • ((1 / ((T.hring v).map (fun ve => eW ve.2)).sum) •
          ((T.hring v).map (fun ve => eW ve.2 • (pos ve.1 - pos v))).sum)

/-- `MeshProcessing::smooth`: iterate `smoothStep`. -/
noncomputable def smooth (T : Topo) (pos : Pos T) : ℕ → Pos T
  | 0 => pos
  | n + 1 => smooth T (smoothStep T pos) n

/-- `MeshProcessing::uniform_laplacian_enhance_feature`: snapshot the
positions into `v:old_pos`, run `uniform_smooth`, then
`position += (old - position) * coefficient` (the coefficient is an
`unsigned int` in the source). -/
noncomputable def uniform_laplacian_enhance_feature (T : Topo) (pos : Pos T)
    (iterations : ℕ) (coefficient : ℕ) : Pos T :=
  let v_old := pos
  let p' := uniform_smooth T pos iterations
  fun v => p' v + (coefficient : ℝ) • (v_old v - p' v)

/-- `MeshProcessing::laplace_beltrami_enhance_feature`: same sharpening
around `smooth`. -/
noncomputable def laplace_beltrami_enhance_feature (T : Topo) (pos : Pos T)
    (iterations : ℕ) (coefficient : ℕ) : Pos T :=
  let v_old := pos
  let p' := smooth T pos iterations
  fun v => p' v + (coefficient : ℝ) • (v_old v - p' v)

/-! ### Curvature estimators -/

/-- `MeshProcessing::calc_uniform_mean_curvature`: interior vertices get
`0.5 * norm(laplace)` with `laplace` the one-ring average displacement;
boundary vertices keep `curv = 0`. -/
noncomputable def calc_uniform_mean_curvature (T : Topo) (pos : Pos T) :
    Fin T.nV → ℝ :=
  fun v =>
    if T.isBoundary v then 0
    else
      0.5 * norm3 ((1 / ((T.ring v).length : ℝ)) •
        ((T.ring v).map (fun u => pos u - pos v)).sum)

/-- `MeshProcessing::calc_mean_curvature`: interior vertices get
`0.5 * norm(v_weight[v] * Σ e_weight[e]·(neighbor - v))`; boundary
vertices keep `curv = 0`. Reads the `e:weight` and `v:weight` attributes. -/
noncomputable def calc_mean_curvature (T : Topo) (pos : Pos T)
    (eW : Fin T.nE → ℝ) (vW : Fin T.nV → ℝ) : Fin T.nV → ℝ :=
  fun v =>
    if T.isBoundary v then 0
    else
      0.5 * norm3 (vW v •
        ((T.hring v).map (fun ve => eW ve.2 • (pos ve.1 - pos v))).sum)

/-- The angle term of `calc_gauss_curvature` for a consecutive pair of
one-ring neighbors: `acos(max(-1, min(1, dot(d0, d1))))` on the
normalized edge directions. -/
noncomputable def gaussAngle (pos : Pos T) (v : Fin T.nV) (ab : Fin T.nV × Fin T.nV) : ℝ :=
  Real.arccos (max (-1)
    (min 1 (dot3 (normalize3 (pos ab.1 - pos v)) (normalize3 (pos ab.2 - pos v)))))

/-- `MeshProcessing::calc_gauss_curvature`: interior vertices sum the
angles between consecutive one-ring edge directions — the circulator pair
`(vv_c, ++vv_c)` walks the ring with wraparound, i.e. the ring zipped with
`drop 1 ++ take 1` of itself — and get
`(2π - angles) * 2 * v_weight[v]`; boundary vertices keep `curv = 0`.
Reads the `v:weight` attribute. -/
noncomputable def calc_gauss_curvature (T : Topo) (pos : Pos T)
    (vW : Fin T.nV → ℝ) : Fin T.nV → ℝ :=
  fun v =>
    if T.isBoundary v then 0
    else
      let l := T.ring v
      (2 * Real.pi -
          ((l.zip (l.drop 1 ++ l.take 1)).map (gaussAngle pos v)).sum) *
        2 * vW v

/-! ### Attribute state (for frame-effect claims)

The mesh object carries named per-entity attributes; the curvature
estimators read positions and the weight attributes and write exactly one
per-vertex scalar attribute each. The topology is a fixed parameter `T`
because none of the modelled operations alters connectivity. -/

/-- The mutable per-mesh state: positions plus the named attributes the
core reads and writes (`e:weight`, `v:weight`, `v:unicurvature`,
`v:curvature`, `v:gauss_curvature`). -/
structure State (T : Topo) where
  pos : Pos T
  eW : Fin T.nE → ℝ
  vW : Fin T.nV → ℝ
  uniC : Fin T.nV → ℝ
  meanC : Fin T.nV → ℝ
  gaussC : Fin T.nV → ℝ

/-- `calc_uniform_mean_curvature` as a state transformer: writes only
`v:unicurvature`. -/
noncomputable def calc_uniform_mean_curvatureS (s : State T) : State T :=
  { s with uniC := calc_uniform_mean_curvature T s.pos }

/-- `calc_mean_curvature` as a state transformer: writes only
`v:curvature` (the `e:weight` and `v:weight` attributes are created with
default 0 if absent, which the state always carries). -/
noncomputable def calc_mean_curvatureS (s : State T) : State T :=
  { s with meanC := calc_mean_curvature T s.pos s.eW s.vW }

/-- `calc_gauss_curvature` as a state transformer: writes only
`v:gauss_curvature`. -/
noncomputable def calc_gauss_curvatureS (s : State T) : State T :=
  { s with gaussC := calc_gauss_curvature T s.pos s.vW }

/-- The total contribution of a triplet list to row `i` (the full row sum
of the assembled matrix). -/
def rowContrib {n : ℕ} (i : Fin n) : List (Triplet n) → ℝ
  | [] => 0
  | t :: ts => (if t.1 = i then t.2.2 else 0) + rowContrib i ts

/-! ### Concrete meshes used as witnesses and counterexamples -/

/-- A square fan: apex vertex 0 with a closed one-ring 1,2,3,4 (interior),
the four base vertices on the boundary. Faces (0,1,2), (0,2,3), (0,3,4),
(0,4,1); edges 0-3 are the apex edges, 4-7 the boundary base edges. -/
def pyrT : Topo where
  nV := 5
  nE := 8
  ring := ![[1,2,3,4], [2,0,4], [3,0,1], [4,0,2], [1,0,3]]
  hring := ![[(1,0),(2,1),(3,2),(4,3)], [(2,4),(0,0),(4,7)], [(3,5),(0,1),(1,4)],
             [(4,6),(0,2),(2,5)], [(1,7),(0,3),(3,6)]]
  fring := ![[(0,1,2),(0,2,3),(0,3,4),(0,4,1)], [(0,1,2),(0,4,1)], [(0,1,2),(0,2,3)],
             [(0,2,3),(0,3,4)], [(0,3,4),(0,4,1)]]
  edge := ![⟨1,0,some 2,some 4⟩, ⟨2,0,some 3,some 1⟩, ⟨3,0,some 4,some 2⟩,
            ⟨4,0,some 1,some 3⟩, ⟨2,1,some 0,none⟩, ⟨3,2,some 0,none⟩,
            ⟨4,3,some 0,none⟩, ⟨1,4,some 0,none⟩]
  isBoundary := ![false,true,true,true,true]

/-- Flat positions for the square fan: apex at the origin, base on the
unit axes. -/
noncomputable def pyrPos : Pos pyrT :=
  ![((0:ℝ),(0:ℝ),(0:ℝ)), (1,0,0), (0,1,0), (-1,0,0), (0,-1,0)]

/-- The doubled triangle (two faces glued along all three edges, a closed
manifold): every vertex is interior and every edge has two incident
triangles. With an acute triangle all cotangent weights are positive. -/
def pillowT : Topo where
  nV := 3
  nE := 3
  ring := ![[1,2],[2,0],[0,1]]
  hring := ![[(1,0),(2,1)],[(2,2),(0,0)],[(0,1),(1,2)]]
  fring := fun _ => [(0,1,2),(0,2,1)]
  edge := ![⟨1,0,some 2,some 2⟩, ⟨0,2,some 1,some 1⟩, ⟨2,1,some 0,some 0⟩]
  isBoundary := fun _ => false

/-- An acute triangle (all three cotangents positive). -/
noncomputable def pillowPos : Pos pillowT := ![((0:ℝ),(0:ℝ),(0:ℝ)), (4,0,0), (1,2,0)]

/-- A single triangle plus one isolated vertex (index 3): the isolated
vertex has an empty face circulator. -/
def triIsoT : Topo where
  nV := 4
  nE := 3
  ring := ![[1,2],[2,0],[0,1],[]]
  hring := ![[(1,0),(2,1)],[(2,2),(0,0)],[(0,1),(1,2)],[]]
  fring := ![[(0,1,2)],[(0,1,2)],[(0,1,2)],[]]
  edge := ![⟨1,0,some 2,none⟩, ⟨0,2,some 1,none⟩, ⟨2,1,some 0,none⟩]
  isBoundary := ![true,true,true,true]

/-- Right-triangle positions for `triIsoT`. -/
noncomputable def triIsoPos : Pos triIsoT :=
  ![((0:ℝ),(0:ℝ),(0:ℝ)), (1,0,0), (0,1,0), (5,5,5)]

/-- A degenerate triangle: vertices 0 and 1 coincide, so the face has zero
area and every cross product below vanishes. -/
def degT : Topo where
  nV := 3
  nE := 3
  ring := ![[1,2],[2,0],[0,1]]
  hring := ![[(1,0),(2,1)],[(2,2),(0,0)],[(0,1),(1,2)]]
  fring := ![[(0,1,2)],[(0,1,2)],[(0,1,2)]]
  edge := ![⟨1,0,some 2,none⟩, ⟨0,2,some 1,none⟩, ⟨2,1,some 0,none⟩]
  isBoundary := ![true,true,true]

/-- Positions collapsing vertices 0 and 1. -/
noncomputable def degPos : Pos degT := ![((0:ℝ),(0:ℝ),(0:ℝ)), (0,0,0), (0,1,0)]

/-- A trivial external solver (any solver works for assembly statements). -/
def idSolve : SolveFn := fun _ _ B => (B, true)

/-- An external solver reporting failure (`info() != Eigen::Success`)
while handing back a garbage solution, as a failed Eigen factorization
does. -/
def failSolve : SolveFn := fun _ _ _ => (fun _ _ => 7, false)

/-- The vertex weight as the specification words it: `0.5` divided by the
sum over incident triangles of exactly one-third of each triangle's area
(a triangle's area being half the cross-product norm). -/
noncomputable def specVertexWeight (T : Topo) (pos : Pos T) (v : Fin T.nV) : ℝ :=
  0.5 / ((T.fring v).map (fun tr =>
    (1/3) * (norm3 (cross3 (pos tr.2.1 - pos tr.1) (pos tr.2.2 - pos tr.1)) * 0.5))).sum

/-! ### Generic facts about triplet assembly -/

lemma matrixOfTriplets_append {n : ℕ} (l1 l2 : List (Triplet n)) (i j : Fin n) :
    matrixOfTriplets (l1 ++ l2) i j =
      matrixOfTriplets l1 i j + matrixOfTriplets l2 i j := by
  induction l1 with
  | nil => simp [matrixOfTriplets]
  | cons t ts ih => simp [matrixOfTriplets, ih]; ring

lemma matrixOfTriplets_of_row_ne {n : ℕ} (l : List (Triplet n)) (i j : Fin n)
    (h : ∀ t ∈ l, t.1 ≠ i) : matrixOfTriplets l i j = 0 := by
  induction l with
  | nil => rfl
  | cons t ts ih =>
    have ht : t.1 ≠ i := h t (List.mem_cons_self t ts)
    simp [matrixOfTriplets, ht, ih fun t' h' => h t' (List.mem_cons_of_mem t h')]

lemma rowsTriplets_rows_mem {n : ℕ} (rowT : Fin n → List (Triplet n))
    (hrow : ∀ i' t, t ∈ rowT i' → t.1 = i') (l : List (Fin n)) (t : Triplet n)
    (ht : t ∈ rowsTriplets rowT l) : t.1 ∈ l := by
  induction l with
  | nil => simp [rowsTriplets] at ht
  | cons a as ih =>
    rcases List.mem_append.1 ht with h | h
    · exact (hrow a t h) ▸ List.mem_cons_self a as
    · exact List.mem_cons_of_mem a (ih h)

/-- Reading the assembled matrix at row `i` only sees row `i`'s triplet
block, provided the row list visits `i` exactly once. -/
lemma matrixOfTriplets_rowsTriplets {n : ℕ} (rowT : Fin n → List (Triplet n))
    (hrow : ∀ i' t, t ∈ rowT i' → t.1 = i') (l : List (Fin n)) (hnd : l.Nodup)
    (i j : Fin n) (hi : i ∈ l) :
    matrixOfTriplets (rowsTriplets rowT l) i j = matrixOfTriplets (rowT i) i j := by
  induction l with
  | nil => simp at hi
  | cons a as ih =>
    rcases List.mem_cons.1 hi with h | h
    · subst h
      have hrest : matrixOfTriplets (rowsTriplets rowT as) i j = 0 := by
        refine matrixOfTriplets_of_row_ne _ i j fun t ht => ?_
        intro hti
        exact (List.nodup_cons.1 hnd).1
          (hti ▸ rowsTriplets_rows_mem rowT hrow as t ht)
      simp [rowsTriplets, matrixOfTriplets_append, hrest]
    · have hai : a ≠ i := by
        rintro rfl; exact (List.nodup_cons.1 hnd).1 h
      have hblock : matrixOfTriplets (rowT a) i j = 0 :=
        matrixOfTriplets_of_row_ne _ i j fun t ht => (hrow a t ht) ▸ hai
      simp [rowsTriplets, matrixOfTriplets_append, hblock,
        ih (List.nodup_cons.1 hnd).2 h]

/-- A mapped one-ring triplet block evaluated off its own neighbors is 0. -/
lemma matrixOfTriplets_map_notmem {n m : ℕ} (l : List (Fin n × Fin m))
    (f : Fin n × Fin m → ℝ) (i j : Fin n) (hj : j ∉ l.map Prod.fst) :
    matrixOfTriplets (l.map (fun ve => (i, ve.1, f ve))) i j = 0 := by
  induction l with
  | nil => rfl
  | cons a as ih =>
    have h1 : a.1 ≠ j := fun h => hj (h ▸ List.mem_map_of_mem Prod.fst (List.mem_cons_self a as))
    have h2 : j ∉ as.map Prod.fst := fun h => hj (List.mem_cons_of_mem _ h)
    simp [matrixOfTriplets, ih h2, h1]

/-- A mapped one-ring triplet block evaluated at a neighbor `j` that occurs
exactly once (`Nodup` on the neighbor components) yields that neighbor's
value. -/
lemma matrixOfTriplets_map_mem {n m : ℕ} (l : List (Fin n × Fin m))
    (f : Fin n × Fin m → ℝ) (i j : Fin n) (e : Fin m)
    (hnd : (l.map Prod.fst).Nodup) (hj : (j, e) ∈ l) :
    matrixOfTriplets (l.map (fun ve => (i, ve.1, f ve))) i j = f (j, e) := by
  induction l with
  | nil => simp at hj
  | cons a as ih =>
    have hnd' : a.1 ∉ as.map Prod.fst ∧ (as.map Prod.fst).Nodup := by
      rw [List.map_cons, List.nodup_cons] at hnd; exact hnd
    rcases List.mem_cons.1 hj with h | h
    · subst h
      simp [matrixOfTriplets, matrixOfTriplets_map_notmem as f i j hnd'.1]
    · have haj : a.1 ≠ j := fun hh =>
        hnd'.1 (hh ▸ List.mem_map_of_mem Prod.fst h)
      simp [matrixOfTriplets, haj, ih hnd'.2 h]

lemma sum_matrixOfTriplets {n : ℕ} (ts : List (Triplet n)) (i : Fin n) :
    ∑ j : Fin n, matrixOfTriplets ts i j = rowContrib i ts := by
  induction ts with
  | nil => simp [matrixOfTriplets, rowContrib]
  | cons t ts ih =>
    have hsplit : ∀ j, matrixOfTriplets (t :: ts) i j =
        (if t.1 = i ∧ t.2.1 = j then t.2.2 else 0) + matrixOfTriplets ts i j :=
      fun j => rfl
    simp only [hsplit, Finset.sum_add_distrib, ih, rowContrib]
    congr 1
    by_cases h : t.1 = i
    · simp [h, Finset.sum_ite_eq]
    · simp [h]

lemma rowContrib_append {n : ℕ} (i : Fin n) (l1 l2 : List (Triplet n)) :
    rowContrib i (l1 ++ l2) = rowContrib i l1 + rowContrib i l2 := by
  induction l1 with
  | nil => simp [rowContrib]
  | cons t ts ih => simp [rowContrib, ih]; ring

lemma rowContrib_map {n m : ℕ} (i : Fin n) (l : List (Fin n × Fin m))
    (f : Fin n × Fin m → ℝ) :
    rowContrib i (l.map (fun ve => (i, ve.1, f ve))) = (l.map f).sum := by
  induction l with
  | nil => rfl
  | cons a as ih => simp [rowContrib, ih]

lemma rowContrib_of_row_ne {n : ℕ} (i : Fin n) (l : List (Triplet n))
    (h : ∀ t ∈ l, t.1 ≠ i) : rowContrib i l = 0 := by
  induction l with
  | nil => rfl
  | cons t ts ih =>
    have ht : t.1 ≠ i := h t (List.mem_cons_self t ts)
    simp [rowContrib, ht, ih fun t' h' => h t' (List.mem_cons_of_mem t h')]

lemma rowContrib_rowsTriplets {n : ℕ} (rowT : Fin n → List (Triplet n))
    (hrow : ∀ i' t, t ∈ rowT i' → t.1 = i') (l : List (Fin n)) (hnd : l.Nodup)
    (i : Fin n) (hi : i ∈ l) :
    rowContrib i (rowsTriplets rowT l) = rowContrib i (rowT i) := by
  induction l with
  | nil => simp at hi
  | cons a as ih =>
    rcases List.mem_cons.1 hi with h | h
    · subst h
      have hrest : rowContrib i (rowsTriplets rowT as) = 0 := by
        refine rowContrib_of_row_ne i _ fun t ht => ?_
        intro hti
        exact (List.nodup_cons.1 hnd).1
          (hti ▸ rowsTriplets_rows_mem rowT hrow as t ht)
      simp [rowsTriplets, rowContrib_append, hrest]
    · have hai : a ≠ i := by
        rintro rfl; exact (List.nodup_cons.1 hnd).1 h
      have hblock : rowContrib i (rowT a) = 0 :=
        rowContrib_of_row_ne i _ fun t ht => (hrow a t ht) ▸ hai
      simp [rowsTriplets, rowContrib_append, hblock,
        ih (List.nodup_cons.1 hnd).2 h]

lemma list_sum_map_mul_left {α : Type} (l : List α) (g : α → ℝ) (c : ℝ) :
    (l.map (fun x => c * g x)).sum = c * (l.map g).sum := by
  induction l with
  | nil => simp
  | cons a as ih => simp [ih, mul_add]

lemma sum_erase_eq {n : ℕ} (i : Fin n) (f : Fin n → ℝ) :
    ∑ j ∈ Finset.univ.erase i, f j = (∑ j : Fin n, f j) - f i := by
  rw [← Finset.add_sum_erase _ f (Finset.mem_univ i)]
  ring

/-! ### Row structure of the implicit-smoothing system -/

lemma implicit_row_fst (T : Topo) (t : ℝ) (cotan : Fin T.nE → ℝ)
    (vw : Fin T.nV → ℝ) :
    ∀ i tr, tr ∈ implicit_row T t cotan vw i → tr.1 = i := by
  intro i tr h
  rcases List.mem_append.1 h with h | h
  · rcases List.mem_map.1 h with ⟨ve, _, rfl⟩; rfl
  · simp only [List.mem_singleton] at h; subst h; rfl

lemma implicit_A_row (T : Topo) (pos : Pos T) (t : ℝ) (i j : Fin T.nV) :
    implicit_A T pos t i j =
      matrixOfTriplets
        (implicit_row T t (calc_edges_weights T pos) (vertexWeights T pos) i) i j :=
  matrixOfTriplets_rowsTriplets _ (implicit_row_fst T t _ _) _
    (List.nodup_finRange _) i j (List.mem_finRange i)

lemma implicit_A_diag (T : Topo) (pos : Pos T) (t : ℝ) (i : Fin T.nV)
    (hself : i ∉ (T.hring i).map Prod.fst) :
    implicit_A T pos t i i =
      1 / vertexWeights T pos i +
        t * ((T.hring i).map (fun ve => calc_edges_weights T pos ve.2)).sum := by
  rw [implicit_A_row, implicit_row, matrixOfTriplets_append,
    matrixOfTriplets_map_notmem _ _ _ _ hself]
  simp [matrixOfTriplets]

lemma implicit_A_offdiag (T : Topo) (pos : Pos T) (t : ℝ) (i j : Fin T.nV)
    (e : Fin T.nE) (hnd : ((T.hring i).map Prod.fst).Nodup)
    (hj : (j, e) ∈ T.hring i) (hji : j ≠ i) :
    implicit_A T pos t i j = -t * calc_edges_weights T pos e := by
  rw [implicit_A_row, implicit_row, matrixOfTriplets_append,
    matrixOfTriplets_map_mem _ _ _ _ _ hnd hj]
  simp [matrixOfTriplets]
  exact fun h => absurd h.symm hji

lemma implicit_A_rowsum (T : Topo) (pos : Pos T) (t : ℝ) (i : Fin T.nV) :
    ∑ j : Fin T.nV, implicit_A T pos t i j = 1 / vertexWeights T pos i := by
  have hmap : ((T.hring i).map
        (fun ve => -t * calc_edges_weights T pos ve.2)).sum =
      -t * ((T.hring i).map (fun ve => calc_edges_weights T pos ve.2)).sum := by
    rw [← list_sum_map_mul_left (T.hring i)
      (fun ve => calc_edges_weights T pos ve.2) (-t)]
  rw [implicit_A, implicit_triplets, sum_matrixOfTriplets,
    rowContrib_rowsTriplets _ (implicit_row_fst T t _ _) _
      (List.nodup_finRange _) i (List.mem_finRange i),
    implicit_row, rowContrib_append, rowContrib_map, hmap]
  simp only [rowContrib, if_true, add_zero]
  ring

/-! ### Row structure of the minimal-surface system -/

lemma minimal_row_fst (T : Topo) (cotan : Fin T.nE → ℝ) :
    ∀ i tr, tr ∈ minimal_row T cotan i → tr.1 = i := by
  intro i tr h
  rw [minimal_row] at h
  by_cases hb : T.isBoundary i
  · rw [if_pos hb] at h
    simp only [List.mem_singleton] at h; subst h; rfl
  · rw [if_neg hb] at h
    rcases List.mem_append.1 h with h | h
    · rcases List.mem_map.1 h with ⟨ve, _, rfl⟩; rfl
    · simp only [List.mem_singleton] at h; subst h; rfl

lemma minimal_L_row (T : Topo) (pos : Pos T) (i j : Fin T.nV) :
    minimal_L T pos i j =
      matrixOfTriplets (minimal_row T (calc_edges_weights T pos) i) i j :=
  matrixOfTriplets_rowsTriplets _ (minimal_row_fst T _) _
    (List.nodup_finRange _) i j (List.mem_finRange i)

lemma minimal_L_boundary_diag (T : Topo) (pos : Pos T) (i : Fin T.nV)
    (hb : T.isBoundary i = true) : minimal_L T pos i i = 1 := by
  rw [minimal_L_row, minimal_row, if_pos hb]
  simp [matrixOfTriplets]

lemma minimal_L_boundary_offdiag (T : Topo) (pos : Pos T) (i j : Fin T.nV)
    (hb : T.isBoundary i = true) (hji : j ≠ i) : minimal_L T pos i j = 0 := by
  rw [minimal_L_row, minimal_row, if_pos hb]
  simp [matrixOfTriplets]
  exact fun h => hji h.symm

lemma minimal_L_interior_diag (T : Topo) (pos : Pos T) (i : Fin T.nV)
    (hb : T.isBoundary i = false) (hself : i ∉ (T.hring i).map Prod.fst) :
    minimal_L T pos i i =
      ((T.hring i).map (fun ve => calc_edges_weights T pos ve.2)).sum := by
  rw [minimal_L_row, minimal_row, if_neg (by simp [hb]), matrixOfTriplets_append,
    matrixOfTriplets_map_notmem _ _ _ _ hself]
  simp [matrixOfTriplets]

lemma minimal_L_interior_offdiag (T : Topo) (pos : Pos T) (i j : Fin T.nV)
    (e : Fin T.nE) (hb : T.isBoundary i = false)
    (hnd : ((T.hring i).map Prod.fst).Nodup) (hj : (j, e) ∈ T.hring i)
    (hji : j ≠ i) :
    minimal_L T pos i j = -calc_edges_weights T pos e := by
  rw [minimal_L_row, minimal_row, if_neg (by simp [hb]), matrixOfTriplets_append,
    matrixOfTriplets_map_mem _ _ _ _ _ hnd hj]
  simp [matrixOfTriplets]
  exact fun h => absurd h.symm hji

lemma minimal_L_interior_rowsum (T : Topo) (pos : Pos T) (i : Fin T.nV)
    (hb : T.isBoundary i = false) :
    ∑ j : Fin T.nV, minimal_L T pos i j = 0 := by
  have hmap : ((T.hring i).map
        (fun ve => -calc_edges_weights T pos ve.2)).sum =
      -((T.hring i).map (fun ve => calc_edges_weights T pos ve.2)).sum := by
    rw [show (fun ve : Fin T.nV × Fin T.nE => -calc_edges_weights T pos ve.2) =
          (fun ve => (-1 : ℝ) * calc_edges_weights T pos ve.2) by
        funext ve; ring,
      list_sum_map_mul_left]
    ring
  rw [minimal_L, minimal_triplets, sum_matrixOfTriplets,
    rowContrib_rowsTriplets _ (minimal_row_fst T _) _
      (List.nodup_finRange _) i (List.mem_finRange i),
    minimal_row, if_neg (by simp [hb]), rowContrib_append, rowContrib_map, hmap]
  simp only [rowContrib, if_true, add_zero]
  ring

/-! ### Pillow-mesh weight evaluations -/

lemma pillow_w0 : calc_edges_weights pillowT pillowPos (0 : Fin 3) =
    1 / Real.sqrt 64 + 1 / Real.sqrt 64 := by
  simp only [calc_edges_weights, cotTerm, pillowT, pillowPos, dot3, cross3, norm3,
    Matrix.cons_val_zero, Matrix.cons_val_one, Matrix.head_cons, Option.map_some,
    Prod.mk_sub_mk]
  norm_num

lemma pillow_w1 : calc_edges_weights pillowT pillowPos (1 : Fin 3) =
    12 / Real.sqrt 64 + 12 / Real.sqrt 64 := by
  simp only [calc_edges_weights, cotTerm, pillowT, pillowPos, dot3, cross3, norm3,
    Matrix.cons_val_zero, Matrix.cons_val_one, Matrix.head_cons, Option.map_some,
    Prod.mk_sub_mk]
  norm_num

lemma pillow_w2 : calc_edges_weights pillowT pillowPos (2 : Fin 3) =
    4 / Real.sqrt 64 + 4 / Real.sqrt 64 := by
  simp only [calc_edges_weights, cotTerm, pillowT, pillowPos, dot3, cross3, norm3,
    Matrix.cons_val_zero, Matrix.cons_val_one, Matrix.head_cons, Option.map_some,
    Prod.mk_sub_mk]
  norm_num

lemma sqrt64_pos : (0:ℝ) < Real.sqrt 64 := Real.sqrt_pos.mpr (by norm_num)

lemma pillow_cotan_pos : ∀ e : Fin 3, 0 < calc_edges_weights pillowT pillowPos e := by
  intro e
  have h8 := sqrt64_pos
  fin_cases e
  · rw [show (⟨0, by omega⟩ : Fin 3) = (0 : Fin 3) from rfl, pillow_w0]; positivity
  · rw [show (⟨1, by omega⟩ : Fin 3) = (1 : Fin 3) from rfl, pillow_w1]; positivity
  · rw [show (⟨2, by omega⟩ : Fin 3) = (2 : Fin 3) from rfl, pillow_w2]; positivity

lemma pillow_vw0_pos : 0 < vertexWeights pillowT pillowPos (0 : Fin 3) := by
  have h : vertexWeights pillowT pillowPos (0 : Fin 3) =
      0.5 / (Real.sqrt 64 * 0.5 * 0.3333 + Real.sqrt 64 * 0.5 * 0.3333) := by
    simp only [vertexWeights, calc_vertices_weights, faceAreaTerm, pillowT, pillowPos,
      dot3, cross3, norm3, Matrix.cons_val_zero, Matrix.cons_val_one, Matrix.head_cons,
      Prod.mk_sub_mk, List.map_cons, List.map_nil, List.sum_cons, List.sum_nil,
      List.isEmpty_cons]
    norm_num
  rw [h]
  have h8 := sqrt64_pos
  positivity

lemma coord_ptOfCoords (f : Fin 3 → ℝ) (d : Fin 3) : coord (ptOfCoords f) d = f d := by
  fin_cases d <;> rfl

/-! ### Claims -/

/-- C1: for every mesh and timestep, `implicit_smoothing` assembles, for
each vertex `i` with inverse-area weight `a_i`, the right-hand-side row
`position(i) / a_i`, a matrix row whose off-diagonal entry for each
one-ring neighbor `j` is `-timestep * cotan_weight(edge i,j)` and whose
diagonal entry is `1/a_i + timestep * (sum of one-ring cotan weights)`,
and overwrites every vertex position with the solver's solution of that
system. The one-ring hypotheses are the manifold invariants: each
neighbor occurs once in the circulator and `i` is not its own neighbor. -/
theorem C1_implicit_assembly (solve : SolveFn) (T : Topo) (pos : Pos T) (t : ℝ)
    (i : Fin T.nV)
    (hnd : ((T.hring i).map Prod.fst).Nodup)
    (hself : i ∉ (T.hring i).map Prod.fst) :
    (∀ d, implicit_B T pos i d = coord (pos i) d / vertexWeights T pos i) ∧
    (∀ j e, (j, e) ∈ T.hring i →
      implicit_A T pos t i j = -t * calc_edges_weights T pos e) ∧
    (implicit_A T pos t i i = 1 / vertexWeights T pos i +
      t * ((T.hring i).map (fun ve => calc_edges_weights T pos ve.2)).sum) ∧
    (∀ v, implicit_smoothing solve T pos t v =
      ptOfCoords (fun d =>
        (solve T.nV (implicit_A T pos t) (implicit_B T pos)).1 v d)) := by
  refine ⟨fun d => rfl, ?_, implicit_A_diag T pos t i hself, fun v => rfl⟩
  intro j e hj
  have hji : j ≠ i := fun h => hself (h ▸ List.mem_map_of_mem Prod.fst hj)
  exact implicit_A_offdiag T pos t i j e hnd hj hji

/-- Witness for C1 at the square fan, timestep 1, interior vertex 0. -/
theorem C1_witness :
    ((((pyrT.hring (0 : Fin 5)).map Prod.fst).Nodup ∧
        (0 : Fin 5) ∉ (pyrT.hring (0 : Fin 5)).map Prod.fst)) ∧
    ((∀ d, implicit_B pyrT pyrPos (0 : Fin 5) d =
        coord (pyrPos (0 : Fin 5)) d / vertexWeights pyrT pyrPos (0 : Fin 5)) ∧
      (∀ j e, (j, e) ∈ pyrT.hring (0 : Fin 5) →
        implicit_A pyrT pyrPos 1 (0 : Fin 5) j =
          -1 * calc_edges_weights pyrT pyrPos e) ∧
      (implicit_A pyrT pyrPos 1 (0 : Fin 5) (0 : Fin 5) =
        1 / vertexWeights pyrT pyrPos (0 : Fin 5) +
          1 * ((pyrT.hring (0 : Fin 5)).map
            (fun ve => calc_edges_weights pyrT pyrPos ve.2)).sum) ∧
      (∀ v, implicit_smoothing idSolve pyrT pyrPos 1 v =
        ptOfCoords (fun d =>
          (idSolve pyrT.nV (implicit_A pyrT pyrPos 1) (implicit_B pyrT pyrPos)).1 v d))) :=
  ⟨⟨by decide, by decide⟩,
    C1_implicit_assembly idSolve pyrT pyrPos 1 (0 : Fin 5) (by decide) (by decide)⟩

/-- C2: `minimal_surface` gives every boundary vertex an identity row
(diagonal 1, all off-diagonals 0) with right-hand side the load-time
snapshot position, and every interior vertex a cotangent-Laplacian row
(off-diagonal `-cotan_weight` per one-ring neighbor, diagonal the sum of
the one-ring cotan weights, right-hand side 0); positions are then
overwritten with the solver's solution. -/
theorem C2_minimal_assembly (solve : SolveFn) (T : Topo) (pos posInit : Pos T)
    (i : Fin T.nV)
    (hnd : ((T.hring i).map Prod.fst).Nodup)
    (hself : i ∉ (T.hring i).map Prod.fst) :
    (T.isBoundary i = true →
      minimal_L T pos i i = 1 ∧
      (∀ j, j ≠ i → minimal_L T pos i j = 0) ∧
      (∀ d, minimal_rhs T posInit i d = coord (posInit i) d)) ∧
    (T.isBoundary i = false →
      (∀ j e, (j, e) ∈ T.hring i →
        minimal_L T pos i j = -calc_edges_weights T pos e) ∧
      minimal_L T pos i i =
        ((T.hring i).map (fun ve => calc_edges_weights T pos ve.2)).sum ∧
      (∀ d, minimal_rhs T posInit i d = 0)) ∧
    (∀ v d, coord (minimal_surface solve T pos posInit v) d =
      (solve T.nV (minimal_L T pos) (minimal_rhs T posInit)).1 v d) := by
  refine ⟨fun hb => ⟨minimal_L_boundary_diag T pos i hb, ?_, ?_⟩,
    fun hb => ⟨?_, minimal_L_interior_diag T pos i hb hself, ?_⟩, ?_⟩
  · exact fun j hji => minimal_L_boundary_offdiag T pos i j hb hji
  · intro d; simp [minimal_rhs, hb]
  · intro j e hj
    have hji : j ≠ i := fun h => hself (h ▸ List.mem_map_of_mem Prod.fst hj)
    exact minimal_L_interior_offdiag T pos i j e hb hnd hj hji
  · intro d; simp [minimal_rhs, hb]
  · intro v d
    rw [minimal_surface, coord_ptOfCoords]
    ring

/-- Witness for C2 at the square fan: boundary vertex 1 and interior
vertex 0. -/
theorem C2_witness :
    (pyrT.isBoundary (1 : Fin 5) = true ∧
      minimal_L pyrT pyrPos (1 : Fin 5) (1 : Fin 5) = 1 ∧
      (∀ d, minimal_rhs pyrT pyrPos (1 : Fin 5) d = coord (pyrPos (1 : Fin 5)) d)) ∧
    (pyrT.isBoundary (0 : Fin 5) = false ∧
      minimal_L pyrT pyrPos (0 : Fin 5) (0 : Fin 5) =
        ((pyrT.hring (0 : Fin 5)).map
          (fun ve => calc_edges_weights pyrT pyrPos ve.2)).sum) ∧
    (∀ v d, coord (minimal_surface idSolve pyrT pyrPos pyrPos v) d =
      (idSolve pyrT.nV (minimal_L pyrT pyrPos) (minimal_rhs pyrT pyrPos)).1 v d) := by
  have h1 := C2_minimal_assembly idSolve pyrT pyrPos pyrPos (1 : Fin 5)
    (by decide) (by decide)
  have h0 := C2_minimal_assembly idSolve pyrT pyrPos pyrPos (0 : Fin 5)
    (by decide) (by decide)
  exact ⟨⟨rfl, (h1.1 rfl).1, (h1.1 rfl).2.2⟩,
    ⟨rfl, (h0.2.1 rfl).2.1⟩, h0.2.2⟩

/-- C4 (code bug): when the solver reports failure, `minimal_surface` and
`implicit_smoothing` still overwrite the vertex positions with the
solver's garbage output — nothing is surfaced to the caller and positions
are not left unchanged. Here a failing solver returns the constant 7
matrix and `info() != Success`, yet the apex moves from the origin to
(7,7,7). -/
theorem C4_code_bug :
    (failSolve pyrT.nV (minimal_L pyrT pyrPos) (minimal_rhs pyrT pyrPos)).2 = false ∧
    minimal_surface failSolve pyrT pyrPos pyrPos (0 : Fin 5) = ((7:ℝ), (7:ℝ), (7:ℝ)) ∧
    pyrPos (0 : Fin 5) ≠ ((7:ℝ), (7:ℝ), (7:ℝ)) ∧
    implicit_smoothing failSolve pyrT pyrPos 1 (0 : Fin 5) = ((7:ℝ), (7:ℝ), (7:ℝ)) := by
  refine ⟨rfl, ?_, ?_, rfl⟩
  · show ptOfCoords _ = _
    simp only [ptOfCoords, failSolve, coord, pyrPos, pillowT, Matrix.cons_val_zero,
      Prod.mk.injEq]
    norm_num
  · simp only [pyrPos, Matrix.cons_val_zero, ne_eq, Prod.mk.injEq]
    norm_num

/-- C3 counterexample: the doubled acute triangle has all positive
cotangent weights and vertex 0 interior, yet in the system assembled by
`implicit_smoothing` (timestep 1) the off-diagonal entries of row 0 do
not sum to the negative of the diagonal: the row sums to the mass term
`1 / a_0 > 0`, not zero. -/
theorem C3_counterexample :
    (∀ e : Fin 3, 0 < calc_edges_weights pillowT pillowPos e) ∧
    pillowT.isBoundary (0 : Fin 3) = false ∧
    ¬ (∑ j ∈ Finset.univ.erase (0 : Fin 3), implicit_A pillowT pillowPos 1 (0 : Fin 3) j =
        -(implicit_A pillowT pillowPos 1 (0 : Fin 3) (0 : Fin 3))) := by
  refine ⟨pillow_cotan_pos, rfl, fun hc => ?_⟩
  have hs : ∑ j ∈ Finset.univ.erase (0 : Fin 3),
      implicit_A pillowT pillowPos 1 (0 : Fin 3) j =
      (∑ j : Fin 3, implicit_A pillowT pillowPos 1 (0 : Fin 3) j) -
        implicit_A pillowT pillowPos 1 (0 : Fin 3) (0 : Fin 3) :=
    sum_erase_eq (0 : Fin 3) _
  have htot : ∑ j : Fin 3, implicit_A pillowT pillowPos 1 (0 : Fin 3) j =
      1 / vertexWeights pillowT pillowPos (0 : Fin 3) :=
    implicit_A_rowsum pillowT pillowPos 1 (0 : Fin 3)
  have hvw := pillow_vw0_pos
  have hpos : (0:ℝ) < 1 / vertexWeights pillowT pillowPos (0 : Fin 3) := by positivity
  rw [hs, htot] at hc
  linarith

/-- C3 amended: under the claim's positivity hypothesis, for every
interior vertex the `minimal_surface` row's off-diagonals sum to the
negative of the diagonal, while the `implicit_smoothing` row's
off-diagonals sum to the negative of (diagonal minus the mass term
`1/a_i`) — the implicit row sums to `1/a_i`, not zero. -/
theorem C3_row_sums (T : Topo) (pos : Pos T) (t : ℝ) (i : Fin T.nV)
    (_hpos : ∀ e, 0 < calc_edges_weights T pos e)
    (hint : T.isBoundary i = false) :
    (∑ j ∈ Finset.univ.erase i, minimal_L T pos i j = -(minimal_L T pos i i)) ∧
    (∑ j ∈ Finset.univ.erase i, implicit_A T pos t i j =
      -(implicit_A T pos t i i - 1 / vertexWeights T pos i)) := by
  constructor
  · rw [sum_erase_eq, minimal_L_interior_rowsum T pos i hint]
    ring
  · rw [sum_erase_eq, implicit_A_rowsum]
    ring

/-- Witness for the amended C3 at the doubled acute triangle, vertex 0,
timestep 1. -/
theorem C3_witness :
    ((∀ e : Fin 3, 0 < calc_edges_weights pillowT pillowPos e) ∧
      pillowT.isBoundary (0 : Fin 3) = false) ∧
    ((∑ j ∈ Finset.univ.erase (0 : Fin 3), minimal_L pillowT pillowPos (0 : Fin 3) j =
        -(minimal_L pillowT pillowPos (0 : Fin 3) (0 : Fin 3))) ∧
      (∑ j ∈ Finset.univ.erase (0 : Fin 3), implicit_A pillowT pillowPos 1 (0 : Fin 3) j =
        -(implicit_A pillowT pillowPos 1 (0 : Fin 3) (0 : Fin 3) -
          1 / vertexWeights pillowT pillowPos (0 : Fin 3)))) :=
  ⟨⟨pillow_cotan_pos, rfl⟩,
    C3_row_sums pillowT pillowPos 1 (0 : Fin 3) pillow_cotan_pos rfl⟩

/-- C5 counterexample: on a unit right triangle the code's weight
(`0.5 / (area_terms with factor 0.3333)`) differs from the claimed
`0.5 / (Σ area/3)`: the source multiplies by the literal `0.3333f`, not
by one-third. -/
theorem C5_counterexample :
    vertexWeights triIsoT triIsoPos (0 : Fin 4) ≠
      specVertexWeight triIsoT triIsoPos (0 : Fin 4) := by
  have hl : vertexWeights triIsoT triIsoPos (0 : Fin 4) = 0.5 / (1 * 0.5 * 0.3333) := by
    simp only [vertexWeights, calc_vertices_weights, faceAreaTerm, triIsoT, triIsoPos,
      dot3, cross3, norm3, Matrix.cons_val_zero, Matrix.cons_val_one, Matrix.head_cons,
      Prod.mk_sub_mk, List.map_cons, List.map_nil, List.sum_cons, List.sum_nil,
      List.isEmpty_cons]
    norm_num [Real.sqrt_one]
  have hr : specVertexWeight triIsoT triIsoPos (0 : Fin 4) = 0.5 / ((1/3) * (1 * 0.5)) := by
    simp only [specVertexWeight, triIsoT, triIsoPos, dot3, cross3, norm3,
      Matrix.cons_val_zero, Matrix.cons_val_one, Matrix.head_cons, Prod.mk_sub_mk,
      List.map_cons, List.map_nil, List.sum_cons, List.sum_nil]
    norm_num [Real.sqrt_one]
  rw [hl, hr]
  norm_num

/-- C5 amended: for every vertex with at least one incident face,
`calc_vertices_weights` sets the weight to `0.5` divided by the sum over
its incident triangles of `0.3333` times each triangle's area (the code's
approximation of one-third); a vertex with no incident faces is skipped
and left at the default weight 0. -/
theorem C5_vertex_weights (T : Topo) (pos : Pos T) (v : Fin T.nV) :
    (T.fring v = [] → vertexWeights T pos v = 0) ∧
    (T.fring v ≠ [] → vertexWeights T pos v =
      0.5 / ((T.fring v).map (fun tr =>
        0.3333 * (norm3 (cross3 (pos tr.2.1 - pos tr.1) (pos tr.2.2 - pos tr.1)) * 0.5))).sum) := by
  constructor
  · intro h
    simp [vertexWeights, calc_vertices_weights, h]
  · intro h
    have hne : ((T.fring v).isEmpty) = false := by
      cases hl : T.fring v with
      | nil => exact absurd hl h
      | cons a as => rfl
    rw [vertexWeights, calc_vertices_weights, hne]
    simp only [Bool.false_eq_true, if_false]
    congr 1
    have : faceAreaTerm pos = fun tr : Fin T.nV × Fin T.nV × Fin T.nV =>
        0.3333 * (norm3 (cross3 (pos tr.2.1 - pos tr.1) (pos tr.2.2 - pos tr.1)) * 0.5) := by
      funext tr
      rw [faceAreaTerm]
      ring
    rw [this]

/-- Witness for the amended C5: the isolated vertex keeps weight 0, the
triangle vertex gets the `0.3333`-weighted value. -/
theorem C5_witness :
    (triIsoT.fring (3 : Fin 4) = [] ∧ vertexWeights triIsoT triIsoPos (3 : Fin 4) = 0) ∧
    (triIsoT.fring (0 : Fin 4) ≠ [] ∧
      vertexWeights triIsoT triIsoPos (0 : Fin 4) =
        0.5 / ((triIsoT.fring (0 : Fin 4)).map (fun tr =>
          0.3333 * (norm3 (cross3 (triIsoPos tr.2.1 - triIsoPos tr.1)
            (triIsoPos tr.2.2 - triIsoPos tr.1)) * 0.5))).sum) :=
  ⟨⟨rfl, (C5_vertex_weights triIsoT triIsoPos (3 : Fin 4)).1 rfl⟩,
    ⟨by decide, (C5_vertex_weights triIsoT triIsoPos (0 : Fin 4)).2 (by decide)⟩⟩

/-- C6: each iteration of `uniform_smooth` is one application of
`uniformSmoothStep`, which stages every vertex's new position from the
pre-iteration positions only (Jacobi-style commit): an interior vertex
moves to its old position plus 0.5 times the unweighted one-ring average
of `neighbor - vertex`, a boundary vertex stays put. -/
theorem C6_uniform_smooth (T : Topo) (pos : Pos T) (k : ℕ) (v : Fin T.nV) :
    (uniform_smooth T pos (k + 1) = uniform_smooth T (uniformSmoothStep T pos) k) ∧
    (T.isBoundary v = false →
      uniformSmoothStep T pos v = pos v + (0.5 : ℝ) •
        ((1 / ((T.ring v).length : ℝ)) •
          ((T.ring v).map (fun u => pos u - pos v)).sum)) ∧
    (T.isBoundary v = true → uniformSmoothStep T pos v = pos v) := by
  refine ⟨rfl, fun h => ?_, fun h => ?_⟩ <;> simp [uniformSmoothStep, h]

/-- Witness for C6 at the square fan: one iteration, apex (interior) and
vertex 1 (boundary). -/
theorem C6_witness :
    (uniform_smooth pyrT pyrPos 1 = uniform_smooth pyrT (uniformSmoothStep pyrT pyrPos) 0) ∧
    (pyrT.isBoundary (0 : Fin 5) = false ∧
      uniformSmoothStep pyrT pyrPos (0 : Fin 5) = pyrPos (0 : Fin 5) + (0.5 : ℝ) •
        ((1 / ((pyrT.ring (0 : Fin 5)).length : ℝ)) •
          ((pyrT.ring (0 : Fin 5)).map (fun u => pyrPos u - pyrPos (0 : Fin 5))).sum)) ∧
    (pyrT.isBoundary (1 : Fin 5) = true ∧
      uniformSmoothStep pyrT pyrPos (1 : Fin 5) = pyrPos (1 : Fin 5)) :=
  ⟨(C6_uniform_smooth pyrT pyrPos 0 (0 : Fin 5)).1,
    ⟨rfl, (C6_uniform_smooth pyrT pyrPos 0 (0 : Fin 5)).2.1 rfl⟩,
    ⟨rfl, (C6_uniform_smooth pyrT pyrPos 0 (1 : Fin 5)).2.2 rfl⟩⟩

/-- C7: for an interior vertex, `calc_gauss_curvature` yields
`(2π - Σ angles) * 2 * v_weight[v]` where the angles range over the
consecutive one-ring pairs (the ring zipped with its rotation by one),
each angle being `arccos(clamp(dot(normalize d0, normalize d1), -1, 1))`;
boundary vertices get curvature 0. -/
theorem C7_gauss_curvature (T : Topo) (pos : Pos T) (vW : Fin T.nV → ℝ)
    (v : Fin T.nV) :
    (T.isBoundary v = false →
      calc_gauss_curvature T pos vW v =
        (2 * Real.pi -
            (((T.ring v).zip ((T.ring v).rotate 1)).map (gaussAngle pos v)).sum) *
          2 * vW v) ∧
    (T.isBoundary v = true → calc_gauss_curvature T pos vW v = 0) := by
  constructor
  · intro h
    have hrot : (T.ring v).rotate 1 = (T.ring v).drop 1 ++ (T.ring v).take 1 := by
      cases hl : T.ring v with
      | nil => simp
      | cons a as =>
        rw [List.rotate_eq_drop_append_take (by simp)]

    rw [calc_gauss_curvature, hrot]
    simp [h]
  · intro h
    simp [calc_gauss_curvature, h]

/-- Witness for C7 at the square fan with unit vertex weights: apex
(interior) and vertex 1 (boundary). -/
theorem C7_witness :
    (pyrT.isBoundary (0 : Fin 5) = false ∧
      calc_gauss_curvature pyrT pyrPos (fun _ => 1) (0 : Fin 5) =
        (2 * Real.pi -
            (((pyrT.ring (0 : Fin 5)).zip ((pyrT.ring (0 : Fin 5)).rotate 1)).map
              (gaussAngle pyrPos (0 : Fin 5))).sum) * 2 * 1) ∧
    (pyrT.isBoundary (1 : Fin 5) = true ∧
      calc_gauss_curvature pyrT pyrPos (fun _ => 1) (1 : Fin 5) = 0) :=
  ⟨⟨rfl, (C7_gauss_curvature pyrT pyrPos (fun _ => 1) (0 : Fin 5)).1 rfl⟩,
    ⟨rfl, (C7_gauss_curvature pyrT pyrPos (fun _ => 1) (1 : Fin 5)).2 rfl⟩⟩

/-- C8 (code bug): on a degenerate (zero-area) triangle the cotangent
quotient of `calc_edges_weights` is evaluated with a zero denominator —
there is no guard, no skip and no failure: the edge weight is literally
`dot / norm(cross)` with `norm(cross) = 0` and `dot = 1` (in IEEE floats
this is +Inf, silently stored in `e:weight`). -/
theorem C8_code_bug :
    norm3 (cross3 (degPos (1 : Fin 3) - degPos (2 : Fin 3))
        (degPos (0 : Fin 3) - degPos (2 : Fin 3))) = 0 ∧
    dot3 (degPos (1 : Fin 3) - degPos (2 : Fin 3))
        (degPos (0 : Fin 3) - degPos (2 : Fin 3)) = 1 ∧
    calc_edges_weights degT degPos (0 : Fin 3) =
      dot3 (degPos (1 : Fin 3) - degPos (2 : Fin 3))
          (degPos (0 : Fin 3) - degPos (2 : Fin 3)) /
        norm3 (cross3 (degPos (1 : Fin 3) - degPos (2 : Fin 3))
          (degPos (0 : Fin 3) - degPos (2 : Fin 3))) := by
  refine ⟨?_, ?_, ?_⟩
  · simp only [degPos, dot3, cross3, norm3, Matrix.cons_val_zero, Matrix.cons_val_one,
      Matrix.head_cons, Prod.mk_sub_mk]
    norm_num
  · simp only [degPos, dot3, Matrix.cons_val_zero, Matrix.cons_val_one,
      Matrix.head_cons, Prod.mk_sub_mk]
    norm_num
  · have h : calc_edges_weights degT degPos (0 : Fin 3) =
        dot3 (degPos (1 : Fin 3) - degPos (2 : Fin 3))
            (degPos (0 : Fin 3) - degPos (2 : Fin 3)) /
          norm3 (cross3 (degPos (1 : Fin 3) - degPos (2 : Fin 3))
            (degPos (0 : Fin 3) - degPos (2 : Fin 3))) + 0 := rfl
    rw [h, add_zero]

/-- C9: feature enhancement with `coefficient = 1` is the identity on
positions for both the uniform and the Laplace-Beltrami variant,
regardless of the mesh and the iteration count of the inner smoother. -/
theorem C9_enhance_identity (T : Topo) (pos : Pos T) (iterations : ℕ) :
    uniform_laplacian_enhance_feature T pos iterations 1 = pos ∧
    laplace_beltrami_enhance_feature T pos iterations 1 = pos := by
  constructor
  · funext v
    simp only [uniform_laplacian_enhance_feature, Nat.cast_one, one_smul]
    abel
  · funext v
    simp only [laplace_beltrami_enhance_feature, Nat.cast_one, one_smul]
    abel

/-- C10: none of the three curvature estimators moves a vertex or touches
the mesh connectivity (the topology `T` is fixed by construction in this
model); each writes exactly its own per-vertex curvature attribute and
leaves positions, weight attributes and the other curvature attributes
unchanged. -/
theorem C10_curvature_frame (T : Topo) (s : State T) :
    ((calc_uniform_mean_curvatureS s).pos = s.pos ∧
      (calc_uniform_mean_curvatureS s).eW = s.eW ∧
      (calc_uniform_mean_curvatureS s).vW = s.vW ∧
      (calc_uniform_mean_curvatureS s).meanC = s.meanC ∧
      (calc_uniform_mean_curvatureS s).gaussC = s.gaussC ∧
      (calc_uniform_mean_curvatureS s).uniC = calc_uniform_mean_curvature T s.pos) ∧
    ((calc_mean_curvatureS s).pos = s.pos ∧
      (calc_mean_curvatureS s).eW = s.eW ∧
      (calc_mean_curvatureS s).vW = s.vW ∧
      (calc_mean_curvatureS s).uniC = s.uniC ∧
      (calc_mean_curvatureS s).gaussC = s.gaussC ∧
      (calc_mean_curvatureS s).meanC = calc_mean_curvature T s.pos s.eW s.vW) ∧
    ((calc_gauss_curvatureS s).pos = s.pos ∧
      (calc_gauss_curvatureS s).eW = s.eW ∧
      (calc_gauss_curvatureS s).vW = s.vW ∧
      (calc_gauss_curvatureS s).uniC = s.uniC ∧
      (calc_gauss_curvatureS s).meanC = s.meanC ∧
      (calc_gauss_curvatureS s).gaussC = calc_gauss_curvature T s.pos s.vW) :=
  ⟨⟨rfl, rfl, rfl, rfl, rfl, rfl⟩, ⟨rfl, rfl, rfl, rfl, rfl, rfl⟩,
    ⟨rfl, rfl, rfl, rfl, rfl, rfl⟩⟩

end GP
